import Mathlib

/-!
# Verification development for the jobscraper pipeline

Shallow embedding of the jobscraper repository's core pipeline:
* `src/utils/keywords.js` — keyword extraction and seniority detection,
* `src/db/queries.js` (`src/db/connection.js` staged file) — repository
  upsert / staleness sweep over an explicit row-list state,
* `src/crawlers/indeed.js` — URL normalization, job-card filtering, and
  the crawl orchestration loop (fetch / parse / classify / sink / sleep),
  modelled as a pure function that also emits the crawl's action trace.

JavaScript regular-expression tests of the form `\b<literal>\b` (all the
patterns the classifier uses are alternations of escaped literals) are
modelled by an executable word-boundary matcher over `List Char`, with
JS word characters `[A-Za-z0-9_]`.
-/

set_option maxHeartbeats 1000000

namespace JobScraper

/-! ## Word-boundary regex model (JS `\b...\b` over literal alternatives) -/

/-- JS regex word character: `[A-Za-z0-9_]`. -/
def isWordChar (c : Char) : Bool := c.isAlpha || c.isDigit || c = '_'

/-- Word-character test of an optional character; the absent character
(string edge) counts as a non-word character. -/
def isWordOpt : Option Char → Bool
  | none => false
  | some c => isWordChar c

/-- JS `\b` holds between two (optional) characters iff exactly one side is
a word character. -/
def wb (a b : Option Char) : Bool := isWordOpt a != isWordOpt b

/-- Strip `kw` from the front of `t`: `some rest` iff `t = kw ++ rest`. -/
def dropLead : List Char → List Char → Option (List Char)
  | [], t => some t
  | _ :: _, [] => none
  | k :: ks, c :: cs => if k = c then dropLead ks cs else none

/-- Does the literal `kw` match at the current position (the position right
after `prev`), with `\b` satisfied on both ends? -/
def wbHere (kw : List Char) (prev : Option Char) (t : List Char) : Bool :=
  match dropLead kw t with
  | some rest => wb prev kw.head? && wb kw.getLast? rest.head?
  | none => false

/-- Scan all positions of the text for a `\b kw \b` match; `prev` is the
character immediately before the current position. -/
def wbMatchAux (kw : List Char) : Option Char → List Char → Bool
  | prev, [] => wbHere kw prev []
  | prev, c :: cs => wbHere kw prev (c :: cs) || wbMatchAux kw (some c) cs

/-- `new RegExp('\\b' + escape(kw) + '\\b').test(text)` for a literal `kw`. -/
def wbTest (kw text : String) : Bool :=
  wbMatchAux kw.toList none text.toList

/-- A `\b(w1|w2|...)\b` regex test: some alternative matches at some
position with both boundaries. -/
def matchesAny (terms : List String) (text : String) : Bool :=
  terms.any (fun w => wbTest w text)

/-- ASCII lowercasing (`text.toLowerCase()` on the ASCII inputs the
pipeline handles), evaluated characterwise so it reduces structurally. -/
def lowerStr (s : String) : String := String.mk (s.toList.map Char.toLower)

/-! ## `src/utils/keywords.js` -/

/-- The fixed technology-term dictionary (`KEYWORDS` in
`src/utils/keywords.js`). -/
def KEYWORDS : List String :=
  ["javascript", "typescript", "python", "java", "go", "rust", "c++", "c#", "ruby", "php",
   "react", "vue", "angular", "svelte", "nextjs", "next.js",
   "node", "nodejs", "node.js", "express", "django", "flask", "spring",
   "postgresql", "postgres", "mysql", "mongodb", "redis", "sql",
   "aws", "azure", "gcp", "docker", "kubernetes", "k8s",
   "react native", "flutter", "swift", "kotlin", "ios", "android",
   "api", "rest", "graphql", "microservices", "agile", "git"]

/-- Strip a trailing `.js` from a character list (`replace(/\.js$/, '')`). -/
def stripDotJs (cs : List Char) : List Char :=
  match cs.reverse with
  | 's' :: 'j' :: '.' :: rest => rest.reverse
  | _ => cs

/-- `keyword.replace(/\.js$/, '').replace(/\s+/g, '')`: strip a trailing
`.js` and remove whitespace. -/
def normalizeKw (kw : String) : String :=
  String.mk ((stripDotJs kw.toList).filter (fun c => !c.isWhitespace))

/-- `extractKeywords(text)` from `src/utils/keywords.js`: empty input gives
`[]`; otherwise each dictionary keyword is tested against the lowercased
text with word boundaries, and on a match its normalized form is added to
an insertion-ordered set. -/
def extractKeywords (text : String) : List String :=
  if text = "" then []
  else
    KEYWORDS.foldl (fun acc kw =>
      if wbTest kw (lowerStr text) then
        let n := normalizeKw kw
        if acc.contains n then acc else acc ++ [n]
      else acc) []

/-- Alternatives of the entry-level pattern
`\b(junior|jr\.?|entry|associate|0-2 years)\b` (the optional dot of `jr\.?`
is expanded into the two literals `jr.` and `jr`). -/
def entryTerms : List String := ["junior", "jr.", "jr", "entry", "associate", "0-2 years"]

/-- Alternatives of the senior-level pattern
`\b(senior|sr\.?|lead|staff|principal)\b`. -/
def seniorTerms : List String := ["senior", "sr.", "sr", "lead", "staff", "principal"]

/-- Alternatives of the management pattern
`\b(manager|director|vp|head of|chief)\b`. -/
def managementTerms : List String := ["manager", "director", "vp", "head of", "chief"]

/-- `detectSeniority(title)` from `src/utils/keywords.js`: empty input gives
`"mid"`; otherwise the entry pattern is tested first, then the senior
pattern (which includes staff/principal), then the management pattern;
no match defaults to `"mid"`. -/
def detectSeniority (title : String) : String :=
  if title = "" then "mid"
  else
    let l := lowerStr title
    if matchesAny entryTerms l then "entry"
    else if matchesAny seniorTerms l then "senior"
    else if matchesAny managementTerms l then "management"
    else "mid"

/-! ## Repository model (`upsertJob` / `markInactive` in `src/db`,
schema `src/db/schema.sql`: `job_url` is `UNIQUE NOT NULL`, `id SERIAL`,
`is_active` defaults true, `last_verified` / `created_at` default `NOW()`). -/

/-- The classified job record handed to `upsertJob`. -/
structure JobData where
  job_url : String
  title : String
  company : String
  location : String
  keywords : List String
  source : String
deriving Repr, DecidableEq

/-- One row of `job_repository`. Timestamps are integers (seconds). -/
structure StoredRow where
  id : Nat
  job_url : String
  title : String
  company : String
  location : String
  keywords : List String
  source : String
  is_active : Bool
  last_verified : Int
  created_at : Int
deriving Repr, DecidableEq

/-- The table state plus the `SERIAL` id counter. -/
structure Repo where
  rows : List StoredRow
  nextId : Nat
deriving Repr, DecidableEq

/-- The schema's `UNIQUE` constraint on `job_url`. -/
def urlUnique (r : Repo) : Prop :=
  r.rows.Pairwise (fun a b => a.job_url ≠ b.job_url)

/-- The row an `INSERT` creates: the six supplied columns plus the schema
defaults `is_active = true`, `last_verified = NOW()`, `created_at = NOW()`
and the next `SERIAL` id. -/
def freshRow (now : Int) (j : JobData) (id : Nat) : StoredRow :=
  { id := id, job_url := j.job_url, title := j.title,
    company := j.company, location := j.location, keywords := j.keywords,
    source := j.source, is_active := true, last_verified := now, created_at := now }

/-- The `DO UPDATE SET last_verified = NOW(), is_active = true,
keywords = EXCLUDED.keywords` applied to the conflicting row (and to no
other row). -/
def conflictUpdate (now : Int) (j : JobData) (q : StoredRow) : StoredRow :=
  if q.job_url == j.job_url then
    { q with last_verified := now, is_active := true, keywords := j.keywords }
  else q

/-- `upsertJob(jobData)`: `INSERT ... ON CONFLICT (job_url) DO UPDATE SET
last_verified = NOW(), is_active = true, keywords = EXCLUDED.keywords
RETURNING id`. Insert appends a fresh row with schema defaults; conflict
updates exactly the columns listed. Returns the new state and the
returned id. -/
def upsertJob (now : Int) (j : JobData) (r : Repo) : Repo × Nat :=
  match r.rows.find? (fun q => q.job_url == j.job_url) with
  | some row => ({ r with rows := r.rows.map (conflictUpdate now j) }, row.id)
  | none => ({ rows := r.rows ++ [freshRow now j r.nextId], nextId := r.nextId + 1 }, r.nextId)

/-- `INTERVAL '7 days'` in seconds. -/
def sevenDays : Int := 7 * 86400

/-- The `WHERE` clause of `markInactive`:
`last_verified < NOW() - INTERVAL '7 days' AND is_active = true`. -/
def isStale (now : Int) (q : StoredRow) : Bool :=
  decide (q.last_verified < now - sevenDays) && q.is_active

/-- The per-row effect of the sweep's `UPDATE`: flip `is_active` off on a
matching row, leave every other row untouched. -/
def sweepRow (now : Int) (q : StoredRow) : StoredRow :=
  if isStale now q then { q with is_active := false } else q

/-- `markInactive()`: `UPDATE job_repository SET is_active = false WHERE
last_verified < NOW() - INTERVAL '7 days' AND is_active = true`; returns
the new state and the update's row count. -/
def markInactive (now : Int) (r : Repo) : Repo × Nat :=
  ({ r with rows := r.rows.map (sweepRow now) },
   (r.rows.filter (isStale now)).length)

/-! ## URL normalization (`parseJobs` in `src/crawlers/indeed.js`,
lines 92–105). -/

/-- Characters a URL scheme may contain (after its leading letter). -/
def isSchemeChar (c : Char) : Bool :=
  c.isAlpha || c.isDigit || c = '+' || c = '-' || c = '.'

/-- A character ending the host part of a URL. -/
def isHostEnd (c : Char) : Bool := c = '/' || c = '?' || c = '#'

/-- A character ending the path part of a URL. -/
def isPathEnd (c : Char) : Bool := c = '?' || c = '#'

/-- A lowercase hostname character: lowercase letter, digit, dot or
hyphen (stated over code points so proofs can reason arithmetically). -/
def goodHostChar (c : Char) : Bool :=
  (97 ≤ c.toNat && c.toNat ≤ 122) || (48 ≤ c.toNat && c.toNat ≤ 57) ||
  c.toNat == 46 || c.toNat == 45

/-- The pieces of a parsed hierarchical URL the crawler uses. -/
structure URLParts where
  scheme : String
  host : String
  pathname : String
deriving Repr, DecidableEq

/-- Model of JS `new URL(s)` for the hierarchical
`scheme://host/path?query#fragment` URLs the crawler builds: scheme and
host are lowercased, `pathname` is the part between host and the first
`?` or `#` (`/` when that part is empty). A string without a
`scheme://host` shape fails to parse (`none`) — the code then keeps the
original string. -/
def parseURL (s : String) : Option URLParts :=
  let cs := s.toList
  let sch := cs.takeWhile isSchemeChar
  let rest := cs.dropWhile isSchemeChar
  match sch.head? with
  | none => none
  | some c0 =>
    if !c0.isAlpha then none
    else
      match rest with
      | ':' :: '/' :: '/' :: rest2 =>
        let host := rest2.takeWhile (fun c => !isHostEnd c)
        let rest3 := rest2.dropWhile (fun c => !isHostEnd c)
        if host.isEmpty then none
        else
          let path := rest3.takeWhile (fun c => !isPathEnd c)
          some { scheme := String.mk (sch.map Char.toLower),
                 host := String.mk (host.map Char.toLower),
                 pathname := if path.isEmpty then "/" else String.mk path }
      | _ => none

/-- `urlObj.origin` for the URLs in scope (no explicit port). -/
def origin (u : URLParts) : String := u.scheme ++ "://" ++ u.host

/-- Lines 92–105 of `parseJobs`: a href starting with `/` is made absolute
by prefixing the crawler's base URL (`${this.baseUrl}${jobUrl}`); then
`${urlObj.origin}${urlObj.pathname}` drops query and fragment; if `new URL`
fails the URL is kept as-is. -/
def normalizeJobUrl (baseUrl href : String) : String :=
  let jobUrl := if href.toList.head? = some '/' then baseUrl ++ href else href
  match parseURL jobUrl with
  | some u => origin u ++ u.pathname
  | none => jobUrl

/-! ## Job-card extraction (`parseJobs`, lines 65–123). -/

/-- A raw posting as `parseJobs` returns it. -/
structure RawJob where
  title : String
  company : String
  location : String
  job_url : String
  source : String
deriving Repr, DecidableEq

/-- One job card's extracted text fields — the trimmed results of the
selector chains of lines 79–90. `href = none` models a card whose title
link has no `href` attribute. -/
structure Candidate where
  title : String
  company : String
  location : String
  href : Option String
deriving Repr, DecidableEq

/-- Lines 88–116 of `parseJobs` for one card: normalize the href (a
missing or empty href is falsy, so normalization is skipped and the url
check fails) and keep the card only when title, company and url are all
non-empty; an empty location becomes `"Not specified"`. -/
def processCard (baseUrl : String) (c : Candidate) : Option RawJob :=
  let jobUrl := match c.href with
    | none => ""
    | some h => if h = "" then "" else normalizeJobUrl baseUrl h
  if c.title ≠ "" ∧ c.company ≠ "" ∧ jobUrl ≠ "" then
    some { title := c.title, company := c.company,
           location := if c.location = "" then "Not specified" else c.location,
           job_url := jobUrl, source := "indeed" }
  else none

/-- `parseJobs` over the page's job cards: per-card processing with
silently dropped candidates. -/
def parseJobs (baseUrl : String) (cards : List Candidate) : List RawJob :=
  cards.filterMap (processCard baseUrl)

/-! ## Crawl orchestration (`crawl` in `src/crawlers/indeed.js`,
lines 131–202). -/

/-- A character `encodeURIComponent` leaves unescaped
(`A-Z a-z 0-9 - _ . ! ~ * ' ( )`; code 39 is the apostrophe). -/
def isUnreservedURI (c : Char) : Bool :=
  c.isAlpha || c.isDigit || c = '-' || c = '_' || c = '.' || c = '!' ||
  c = '~' || c = '*' || c = '(' || c = ')' || c.toNat = 39

/-- UTF-8 bytes of a code point. -/
def utf8Bytes (n : Nat) : List Nat :=
  if n < 128 then [n]
  else if n < 2048 then [192 + n / 64, 128 + n % 64]
  else if n < 65536 then [224 + n / 4096, 128 + (n / 64) % 64, 128 + n % 64]
  else [240 + n / 262144, 128 + (n / 4096) % 64, 128 + (n / 64) % 64, 128 + n % 64]

/-- Uppercase hexadecimal digit. -/
def hexDigit (n : Nat) : Char := if n < 10 then Char.ofNat (48 + n) else Char.ofNat (55 + n)

/-- Percent-encoding of one character's UTF-8 bytes. -/
def pctEncode (c : Char) : List Char :=
  (utf8Bytes c.toNat).flatMap (fun b => ['%', hexDigit (b / 16), hexDigit (b % 16)])

/-- JS `encodeURIComponent`. -/
def encodeURIComponent (s : String) : String :=
  String.mk (s.toList.flatMap (fun c => if isUnreservedURI c then [c] else pctEncode c))

/-- `this.baseUrl` of the Indeed crawler. -/
def indeedBaseUrl : String := "https://www.indeed.com"

/-- `buildSearchUrl(keywords, location)` (lines 23–27). -/
def buildSearchUrl (keywords location : String) : String :=
  indeedBaseUrl ++ "/jobs?q=" ++ encodeURIComponent keywords ++
    "&l=" ++ encodeURIComponent location

/-- The URL fetched for page index `page` (lines 141–148): `startIndex =
page * 10`, and `&start=` is appended only when `startIndex > 0`. -/
def buildPageUrl (keywords location : String) (page : Nat) : String :=
  let u := buildSearchUrl keywords location
  if page * 10 > 0 then u ++ "&start=" ++ toString (page * 10) else u

/-- The job record passed to the sink (lines 165–177): the raw job plus
the extracted keywords and detected seniority. -/
structure ClassifiedJob where
  title : String
  company : String
  location : String
  job_url : String
  source : String
  keywords : List String
  seniority_level : String
deriving Repr, DecidableEq

/-- Lines 166–177: classify one parsed job. -/
def classify (j : RawJob) : ClassifiedJob :=
  { title := j.title, company := j.company, location := j.location,
    job_url := j.job_url, source := j.source,
    keywords := extractKeywords j.title, seniority_level := detectSeniority j.title }

/-- One observable action of a crawl: a page fetch, a sink invocation, or
a rate-limit sleep. -/
inductive Event where
  | fetchEv (url : String)
  | saveEv (job : ClassifiedJob)
  | sleepEv
deriving Repr, DecidableEq

/-- The outcome `fetchPage` reports (lines 42–58): it catches its own
errors and returns `{success, html}` or `{success: false}`. -/
inductive FetchOutcome where
  | ok (html : String)
  | err
deriving Repr, DecidableEq

/-- The crawl's `searchParams`. -/
structure SearchParams where
  keywords : List String
  locations : List String
  maxPages : Nat
deriving Repr, DecidableEq

/-- Lines 164–185: classify and save each parsed job in order; the posting
counter is incremented only after the sink call returns. The sink call is
not wrapped in a try/catch inside `crawl`, so a sink exception propagates
(`Except.error`). Returns the emitted sink events and `totalJobsFound`'s
increment (or the propagated exception). -/
def processJobs (sink : ClassifiedJob → Except Unit Unit) :
    List RawJob → List Event × Except Unit Nat
  | [] => ([], Except.ok 0)
  | j :: rest =>
    let jd := classify j
    match sink jd with
    | Except.error e => ([Event.saveEv jd], Except.error e)
    | Except.ok _ =>
      match processJobs sink rest with
      | (tr, Except.ok n) => (Event.saveEv jd :: tr, Except.ok (n + 1))
      | (tr, Except.error e) => (Event.saveEv jd :: tr, Except.error e)

/-- Lines 141–192, the body of the `for (let page = 0; page < maxPages;
page++)` loop of one (keyword, location) pair, over the list of remaining
page indices. A failed fetch breaks the loop (remaining pages are skipped,
no inter-page sleep). After a successful page, the inter-page sleep runs
exactly when `page < maxPages - 1` (line 188). -/
def doPages (env : String → FetchOutcome) (parse : String → List RawJob)
    (sink : ClassifiedJob → Except Unit Unit) (kw loc : String) (maxPages : Nat) :
    List Nat → List Event × Except Unit Nat
  | [] => ([], Except.ok 0)
  | page :: rest =>
    let url := buildPageUrl kw loc page
    match env url with
    | FetchOutcome.err => ([Event.fetchEv url], Except.ok 0)
    | FetchOutcome.ok html =>
      match processJobs sink (parse html) with
      | (trJ, Except.error e) => (Event.fetchEv url :: trJ, Except.error e)
      | (trJ, Except.ok n) =>
        let pre := Event.fetchEv url :: trJ ++
          (if page < maxPages - 1 then [Event.sleepEv] else [])
        match doPages env parse sink kw loc maxPages rest with
        | (trR, Except.ok m) => (pre ++ trR, Except.ok (n + m))
        | (trR, Except.error e) => (pre ++ trR, Except.error e)

/-- One (keyword, location) pair (lines 138–197): the page loop over page
indices `0 .. maxPages-1`, then the unconditional between-searches sleep
of line 196 — which only a propagating sink exception skips. -/
def doPair (env : String → FetchOutcome) (parse : String → List RawJob)
    (sink : ClassifiedJob → Except Unit Unit) (maxPages : Nat) (kw loc : String) :
    List Event × Except Unit Nat :=
  match doPages env parse sink kw loc maxPages (List.range maxPages) with
  | (tr, Except.error e) => (tr, Except.error e)
  | (tr, Except.ok n) => (tr ++ [Event.sleepEv], Except.ok n)

/-- The keyword × location double loop (keyword outer, location inner). -/
def doPairs (env : String → FetchOutcome) (parse : String → List RawJob)
    (sink : ClassifiedJob → Except Unit Unit) (maxPages : Nat) :
    List (String × String) → List Event × Except Unit Nat
  | [] => ([], Except.ok 0)
  | (kw, loc) :: rest =>
    match doPair env parse sink maxPages kw loc with
    | (tr, Except.error e) => (tr, Except.error e)
    | (tr, Except.ok n) =>
      match doPairs env parse sink maxPages rest with
      | (trR, Except.ok m) => (tr ++ trR, Except.ok (n + m))
      | (trR, Except.error e) => (tr ++ trR, Except.error e)

/-- The (keyword, location) pairs a crawl visits, in visit order. -/
def crawlPairs (sp : SearchParams) : List (String × String) :=
  sp.keywords.flatMap (fun k => sp.locations.map (fun l => (k, l)))

/-- `crawl(searchParams, saveCallback)` (lines 131–202): the full crawl,
parameterized by the fetch environment (`env`, what `fetchPage` returns
per URL), the page parser and the sink. Returns the crawl's action trace
and `totalJobsFound` — or the sink exception `crawl` lets escape. -/
def crawl (env : String → FetchOutcome) (parse : String → List RawJob)
    (sink : ClassifiedJob → Except Unit Unit) (sp : SearchParams) :
    List Event × Except Unit Nat :=
  doPairs env parse sink sp.maxPages (crawlPairs sp)

/-- Number of sink invocations recorded in a trace. -/
def countSaves (tr : List Event) : Nat :=
  tr.countP (fun e => match e with | Event.saveEv _ => true | _ => false)

/-- Number of rows with the given url: "exactly one stored row for that
url" is `countUrl u rows = 1`. -/
def countUrl (u : String) (rows : List StoredRow) : Nat :=
  (rows.filter (fun q => q.job_url == u)).length

/-! ### Concrete scenario used by witnesses -/

/-- A sample classified job record. -/
def demoJob : JobData :=
  { job_url := "https://www.indeed.com/viewjob", title := "Software Engineer",
    company := "Acme", location := "Remote", keywords := ["python"], source := "indeed" }

/-- A reference sweep time. -/
def demoNow : Int := 1000000

/-- Active row last verified 8 days ago. -/
def demoRow1 : StoredRow :=
  { id := 1, job_url := "https://a/1", title := "T1", company := "C1",
    location := "Remote", keywords := [], source := "indeed",
    is_active := true, last_verified := demoNow - 8 * 86400, created_at := 0 }

/-- Inactive row last verified 8 days ago. -/
def demoRow2 : StoredRow :=
  { id := 2, job_url := "https://a/2", title := "T2", company := "C2",
    location := "Remote", keywords := [], source := "indeed",
    is_active := false, last_verified := demoNow - 8 * 86400, created_at := 0 }

/-- Active row last verified 1 day ago. -/
def demoRow3 : StoredRow :=
  { id := 3, job_url := "https://a/3", title := "T3", company := "C3",
    location := "Remote", keywords := [], source := "indeed",
    is_active := true, last_verified := demoNow - 86400, created_at := 0 }

/-- A three-row repository exercising the staleness sweep. -/
def demoRepo : Repo := { rows := [demoRow1, demoRow2, demoRow3], nextId := 4 }

/-- The empty repository. -/
def emptyRepo : Repo := { rows := [], nextId := 1 }

/-- A stored posting sharing its url with `demoJob` but carrying the
original sighting fields. -/
def demoStoredRow : StoredRow :=
  { id := 1, job_url := "https://www.indeed.com/viewjob", title := "Original Title",
    company := "Original Co", location := "NYC", keywords := ["java"],
    source := "indeed", is_active := false, last_verified := 0, created_at := 5 }

/-- A one-row repository holding `demoStoredRow`. -/
def demoRepo1 : Repo := { rows := [demoStoredRow], nextId := 2 }

/-- A raw posting as the page parser would return it. -/
def demoRawJob : RawJob :=
  { title := "Software Engineer", company := "Acme", location := "Remote",
    job_url := "https://www.indeed.com/viewjob", source := "indeed" }

/-- Fetch environment that succeeds on every URL. -/
def envAllOk : String → FetchOutcome := fun _ => FetchOutcome.ok "page"

/-- Fetch environment failing exactly on page index 1 of the pair
(keyword "x", location "y"). -/
def envFailXY1 : String → FetchOutcome := fun u =>
  if u = buildPageUrl "x" "y" 1 then FetchOutcome.err else FetchOutcome.ok "page"

/-- Parser finding no postings on any page. -/
def parseNone : String → List RawJob := fun _ => []

/-- Parser finding one posting on every page. -/
def parseOne : String → List RawJob := fun _ => [demoRawJob]

/-- Sink that always succeeds. -/
def sinkOk : ClassifiedJob → Except Unit Unit := fun _ => Except.ok ()

/-- Sink that always throws. -/
def sinkThrow : ClassifiedJob → Except Unit Unit := fun _ => Except.error ()

/-- One keyword, one location, one page. -/
def spSingle : SearchParams := { keywords := ["java"], locations := ["Remote"], maxPages := 1 }

/-- Two keywords, one location, three pages — the partial-failure
scenario of the spec (pair ("x","y") then pair ("z","y")). -/
def spXZ : SearchParams := { keywords := ["x", "z"], locations := ["y"], maxPages := 3 }

/-! ## C1 — seniority precedence -/

/-- C1, counterexample: `detectSeniority` tests the senior pattern (which
contains staff and principal) before the management pattern, so
"Senior Engineering Manager" classifies as senior, not management, and
"Staff Software Engineer" classifies as senior, not staff (no `staff`
level exists in the code at all). -/
theorem C1_counterexample :
    detectSeniority "Senior Engineering Manager" = "senior" ∧
    detectSeniority "Senior Engineering Manager" ≠ "management" ∧
    detectSeniority "Staff Software Engineer" = "senior" ∧
    detectSeniority "Staff Software Engineer" ≠ "staff" := by
  refine ⟨by decide, by decide, by decide, by decide⟩

/-- C1, amended: for a non-empty title, `detectSeniority` evaluates the
ordered category patterns with entry terms (junior/jr/entry/associate/0-2
years) first, then senior terms (senior/sr/lead/staff/principal), then
management terms (manager/director/vp/head of/chief); first match wins and
no match defaults to mid. Hence "Senior Engineering Manager" → senior,
"Staff Software Engineer" → senior, "Junior Developer" → entry,
"Software Engineer" → mid. -/
theorem C1_seniority_precedence (title : String) (h : title ≠ "") :
    (matchesAny entryTerms (lowerStr title) = true →
      detectSeniority title = "entry") ∧
    (matchesAny entryTerms (lowerStr title) = false →
      matchesAny seniorTerms (lowerStr title) = true →
      detectSeniority title = "senior") ∧
    (matchesAny entryTerms (lowerStr title) = false →
      matchesAny seniorTerms (lowerStr title) = false →
      matchesAny managementTerms (lowerStr title) = true →
      detectSeniority title = "management") ∧
    (matchesAny entryTerms (lowerStr title) = false →
      matchesAny seniorTerms (lowerStr title) = false →
      matchesAny managementTerms (lowerStr title) = false →
      detectSeniority title = "mid") ∧
    detectSeniority "Senior Engineering Manager" = "senior" ∧
    detectSeniority "Staff Software Engineer" = "senior" ∧
    detectSeniority "Junior Developer" = "entry" ∧
    detectSeniority "Software Engineer" = "mid" := by
  refine ⟨?_, ?_, ?_, ?_, by decide, by decide, by decide, by decide⟩ <;>
    intros <;> simp_all [detectSeniority]

/-- C1, witness: the amended precedence theorem applied at the concrete
title "Junior Developer". -/
theorem C1_witness : detectSeniority "Junior Developer" = "entry" :=
  (C1_seniority_precedence "Junior Developer" (by decide)).1 (by decide)

/-! ## C4 — keyword canonicalization -/

/-- C4, counterexample: the two spellings do not collapse to one shared
canonical token — "Node.js Developer" extracts `["node"]` while
"NodeJS Engineer" extracts `["nodejs"]`, and no token is common to the
two results. -/
theorem C4_counterexample :
    extractKeywords "Node.js Developer" = ["node"] ∧
    extractKeywords "NodeJS Engineer" = ["nodejs"] ∧
    ∀ t, t ∈ extractKeywords "Node.js Developer" →
      t ∉ extractKeywords "NodeJS Engineer" := by
  refine ⟨by decide, by decide, by decide⟩

/-- C4, amended: normalization collapses the dictionary variants `node`
and `node.js` to the single canonical token `node`, but the variant
`nodejs` normalizes to itself, so "Node.js Developer" yields the singleton
keyword set `["node"]` while "NodeJS Engineer" yields `["nodejs"]`: each
result contains exactly one token for the runtime, but the token differs
between the two spellings. -/
theorem C4_node_variants :
    normalizeKw "node" = "node" ∧
    normalizeKw "node.js" = "node" ∧
    normalizeKw "nodejs" = "nodejs" ∧
    extractKeywords "Node.js Developer" = ["node"] ∧
    extractKeywords "NodeJS Engineer" = ["nodejs"] := by
  refine ⟨by decide, by decide, by decide, by decide, by decide⟩

/-! ## Repository lemmas -/

lemma conflictUpdate_url (now : Int) (j : JobData) (q : StoredRow) :
    (conflictUpdate now j q).job_url = q.job_url := by
  unfold conflictUpdate; split <;> rfl

lemma conflictUpdate_of_ne {now : Int} {j : JobData} {q : StoredRow}
    (h : q.job_url ≠ j.job_url) : conflictUpdate now j q = q := by
  simp [conflictUpdate, h]

/-- Under the uniqueness invariant, `find?` by url returns any member
that carries that url. -/
lemma find?_url_of_unique {rows : List StoredRow} {u : String} {q0 : StoredRow}
    (hp : rows.Pairwise (fun a b => a.job_url ≠ b.job_url))
    (hmem : q0 ∈ rows) (hq : q0.job_url = u) :
    rows.find? (fun q => q.job_url == u) = some q0 := by
  induction rows with
  | nil => cases hmem
  | cons a t ih =>
    rcases List.pairwise_cons.mp hp with ⟨ha, ht⟩
    rcases List.mem_cons.mp hmem with rfl | hmem'
    · have hpa : (q0.job_url == u) = true := by simpa using hq
      simp [List.find?_cons, hpa]
    · have hne : (a.job_url == u) = false := by
        have h1 : a.job_url ≠ u := hq ▸ ha q0 hmem'
        simpa using h1
      simp only [List.find?_cons, hne]
      exact ih ht hmem'

/-- Two members with the same url are the same row. -/
lemma eq_of_mem_same_url {rows : List StoredRow} {p q : StoredRow}
    (hp : rows.Pairwise (fun a b => a.job_url ≠ b.job_url))
    (hpm : p ∈ rows) (hqm : q ∈ rows) (h : p.job_url = q.job_url) : p = q := by
  have h1 := find?_url_of_unique hp hpm h
  have h2 := find?_url_of_unique hp hqm rfl
  rw [h1] at h2
  exact Option.some.inj h2

/-- Every row of the upserted state carrying the upserted url has the
refreshed verification time, active flag, replaced keyword set, and the
returned id. -/
lemma upsertJob_mem_url {r : Repo} {j : JobData} {t : Int} (hu : urlUnique r) :
    ∀ q ∈ (upsertJob t j r).1.rows, q.job_url = j.job_url →
      q.last_verified = t ∧ q.is_active = true ∧ q.keywords = j.keywords ∧
      q.id = (upsertJob t j r).2 := by
  intro q hq hurl
  cases hfind : r.rows.find? (fun p => p.job_url == j.job_url) with
  | none =>
    simp only [upsertJob, hfind] at hq ⊢
    rcases List.mem_append.mp hq with hmem | hmem
    · exact absurd hurl (by simpa using List.find?_eq_none.mp hfind q hmem)
    · rcases List.mem_singleton.mp hmem with rfl
      simp [freshRow]
  | some row =>
    have hrow_mem : row ∈ r.rows := List.mem_of_find?_eq_some hfind
    have hrow_url : row.job_url = j.job_url := by
      have := List.find?_some hfind
      simpa using this
    simp only [upsertJob, hfind] at hq ⊢
    rcases List.mem_map.mp hq with ⟨p, hpm, rfl⟩
    by_cases hp : p.job_url = j.job_url
    · have hpr : p = row := eq_of_mem_same_url hu hpm hrow_mem (hp.trans hrow_url.symm)
      subst hpr
      simp [conflictUpdate, hp]
    · rw [conflictUpdate_of_ne hp] at hurl ⊢
      exact absurd hurl hp

/-- The upserted state has a row carrying the upserted url. -/
lemma upsertJob_exists_row (r : Repo) (j : JobData) (t : Int) :
    ∃ q ∈ (upsertJob t j r).1.rows, q.job_url = j.job_url := by
  cases hfind : r.rows.find? (fun p => p.job_url == j.job_url) with
  | none =>
    refine ⟨freshRow t j r.nextId, ?_, rfl⟩
    simp [upsertJob, hfind]
  | some row =>
    have hrow_mem : row ∈ r.rows := List.mem_of_find?_eq_some hfind
    have hrow_url : row.job_url = j.job_url := by
      have := List.find?_some hfind
      simpa using this
    refine ⟨conflictUpdate t j row, ?_, ?_⟩
    · simp only [upsertJob, hfind]
      exact List.mem_map_of_mem _ hrow_mem
    · rw [conflictUpdate_url]; exact hrow_url

/-- Upsert preserves the url-uniqueness invariant. -/
lemma upsertJob_unique {r : Repo} {j : JobData} {t : Int} (hu : urlUnique r) :
    urlUnique (upsertJob t j r).1 := by
  cases hfind : r.rows.find? (fun p => p.job_url == j.job_url) with
  | none =>
    simp only [urlUnique, upsertJob, hfind]
    rw [List.pairwise_append]
    refine ⟨hu, List.pairwise_singleton _ _, ?_⟩
    intro a ha b hb
    rcases List.mem_singleton.mp hb with rfl
    simpa [freshRow] using List.find?_eq_none.mp hfind a ha
  | some row =>
    simp only [urlUnique, upsertJob, hfind]
    exact List.Pairwise.map _ (fun a b hab => by
      rw [conflictUpdate_url, conflictUpdate_url]; exact hab) hu

lemma countUrl_le_one {rows : List StoredRow} {u : String}
    (hp : rows.Pairwise (fun a b => a.job_url ≠ b.job_url)) :
    countUrl u rows ≤ 1 := by
  induction rows with
  | nil => simp [countUrl]
  | cons a t ih =>
    rcases List.pairwise_cons.mp hp with ⟨ha, ht⟩
    by_cases hau : a.job_url = u
    · have hnone : t.filter (fun q => q.job_url == u) = [] := by
        apply List.filter_eq_nil_iff.mpr
        intro q hq
        have h1 : q.job_url ≠ u := fun h => (ha q hq) (hau.trans h.symm)
        simpa using h1
      simp [countUrl, List.filter_cons, hau, hnone]
    · simp only [countUrl, List.filter_cons]
      simp [hau]
      exact ih ht

lemma countUrl_pos_of_mem {rows : List StoredRow} {q : StoredRow} {u : String}
    (hm : q ∈ rows) (hq : q.job_url = u) : 1 ≤ countUrl u rows := by
  have : q ∈ rows.filter (fun p => p.job_url == u) := by
    rw [List.mem_filter]
    exact ⟨hm, by simpa using hq⟩
  have := List.length_pos.mpr (List.ne_nil_of_mem this)
  simpa [countUrl] using this

/-! ## C2 — upsert idempotence by normalized url -/

/-- C2: starting from any state satisfying the url-uniqueness constraint,
upserting two postings with the same url leaves exactly one stored row for
that url; the second upsert returns the same id as the first, and the row
carrying the url after the second upsert has that id, the second upsert
time as `last_verified`, and `is_active = true`. -/
theorem C2_upsert_idempotent (r : Repo) (j1 j2 : JobData) (t1 t2 : Int)
    (hu : urlUnique r) (hurl : j1.job_url = j2.job_url) :
    countUrl j2.job_url (upsertJob t2 j2 (upsertJob t1 j1 r).1).1.rows = 1 ∧
    (upsertJob t2 j2 (upsertJob t1 j1 r).1).2 = (upsertJob t1 j1 r).2 ∧
    (∀ q ∈ (upsertJob t2 j2 (upsertJob t1 j1 r).1).1.rows, q.job_url = j2.job_url →
      q.id = (upsertJob t1 j1 r).2 ∧ q.last_verified = t2 ∧ q.is_active = true) := by
  have hu1 : urlUnique (upsertJob t1 j1 r).1 := upsertJob_unique hu
  obtain ⟨q1, hq1m, hq1url⟩ := upsertJob_exists_row r j1 t1
  have hq1 := upsertJob_mem_url hu q1 hq1m hq1url
  set r1 := (upsertJob t1 j1 r).1 with hr1
  have hfind2 : r1.rows.find? (fun p => p.job_url == j2.job_url) = some q1 :=
    find?_url_of_unique hu1 hq1m (hq1url.trans hurl)
  have hsnd : (upsertJob t2 j2 r1).2 = q1.id := by
    simp only [upsertJob, hfind2]
  have hid : (upsertJob t2 j2 (upsertJob t1 j1 r).1).2 = (upsertJob t1 j1 r).2 := by
    rw [hsnd]; exact hq1.2.2.2
  refine ⟨?_, hid, ?_⟩
  · show countUrl j2.job_url (upsertJob t2 j2 r1).1.rows = 1
    have hle := countUrl_le_one (u := j2.job_url)
      (upsertJob_unique (j := j2) (t := t2) hu1)
    obtain ⟨q2, hq2m, hq2url⟩ := upsertJob_exists_row r1 j2 t2
    have hge := countUrl_pos_of_mem hq2m hq2url
    omega
  · intro q hqm hqurl
    have h := upsertJob_mem_url hu1 q hqm hqurl
    exact ⟨h.2.2.2.trans hid, h.1, h.2.1⟩

/-- C2, witness: upserting the same posting twice into the empty
repository. -/
theorem C2_witness :
    countUrl demoJob.job_url
      (upsertJob 20 demoJob (upsertJob 10 demoJob emptyRepo).1).1.rows = 1 ∧
    (upsertJob 20 demoJob (upsertJob 10 demoJob emptyRepo).1).2 =
      (upsertJob 10 demoJob emptyRepo).2 ∧
    (∀ q ∈ (upsertJob 20 demoJob (upsertJob 10 demoJob emptyRepo).1).1.rows,
      q.job_url = demoJob.job_url →
      q.id = (upsertJob 10 demoJob emptyRepo).2 ∧ q.last_verified = 20 ∧
      q.is_active = true) :=
  C2_upsert_idempotent emptyRepo demoJob demoJob 10 20
    (by simp [urlUnique, emptyRepo]) rfl

/-! ## C7 — conflict updates preserve identity fields, replace keywords -/

/-- C7: when the upserted url already has a row, the upsert returns that
original id, and afterwards the row carrying the url still has the
original title, company, location, creation time and id, while its
keyword set has been replaced outright with the newly extracted one. -/
theorem C7_conflict_preserves_identity (r : Repo) (j : JobData) (t : Int)
    (row : StoredRow) (hu : urlUnique r) (hmem : row ∈ r.rows)
    (hurl : row.job_url = j.job_url) :
    (upsertJob t j r).2 = row.id ∧
    ∀ q ∈ (upsertJob t j r).1.rows, q.job_url = j.job_url →
      q.title = row.title ∧ q.company = row.company ∧ q.location = row.location ∧
      q.created_at = row.created_at ∧ q.id = row.id ∧ q.keywords = j.keywords := by
  have hfind : r.rows.find? (fun p => p.job_url == j.job_url) = some row :=
    find?_url_of_unique hu hmem hurl
  constructor
  · simp only [upsertJob, hfind]
  · intro q hq hqurl
    simp only [upsertJob, hfind] at hq
    rcases List.mem_map.mp hq with ⟨p, hpm, rfl⟩
    by_cases hp : p.job_url = j.job_url
    · have hpr : p = row := eq_of_mem_same_url hu hpm hmem (hp.trans hurl.symm)
      subst hpr
      simp [conflictUpdate, hp]
    · rw [conflictUpdate_of_ne hp] at hqurl ⊢
      exact absurd hqurl hp

/-- C7, witness: re-sighting a stored posting with fresh keywords. -/
theorem C7_witness :
    (upsertJob 99 demoJob demoRepo1).2 = demoStoredRow.id ∧
    ∀ q ∈ (upsertJob 99 demoJob demoRepo1).1.rows, q.job_url = demoJob.job_url →
      q.title = demoStoredRow.title ∧ q.company = demoStoredRow.company ∧
      q.location = demoStoredRow.location ∧
      q.created_at = demoStoredRow.created_at ∧ q.id = demoStoredRow.id ∧
      q.keywords = demoJob.keywords :=
  C7_conflict_preserves_identity demoRepo1 demoJob 99 demoStoredRow
    (by simp [urlUnique, demoRepo1]) (by simp [demoRepo1]) rfl

/-! ## C5 — staleness sweep -/

/-- The sweep never increases the number of active rows. -/
lemma sweep_active_le (now : Int) (rows : List StoredRow) :
    ((rows.map (sweepRow now)).filter (fun p => p.is_active)).length ≤
      (rows.filter (fun p => p.is_active)).length := by
  induction rows with
  | nil => simp
  | cons a t ih =>
    by_cases hs : isStale now a = true
    · have ha : a.is_active = true := by
        simp [isStale] at hs
        exact hs.2
      simp [sweepRow, hs, List.filter_cons, ha]
      omega
    · by_cases hact : a.is_active = true <;>
        simp [sweepRow, hs, List.filter_cons, hact] <;> omega

/-- The number of rows the sweep matches equals the drop in the number of
active rows: exactly the stale-and-active rows transition. -/
lemma sweep_transition_count (now : Int) (rows : List StoredRow) :
    (rows.filter (isStale now)).length =
      (rows.filter (fun p => p.is_active)).length -
        ((rows.map (sweepRow now)).filter (fun p => p.is_active)).length := by
  induction rows with
  | nil => simp
  | cons a t ih =>
    have hle := sweep_active_le now t
    by_cases hs : isStale now a = true
    · have ha : a.is_active = true := by
        simp [isStale] at hs
        exact hs.2
      simp [List.filter_cons, hs, sweepRow, ha]
      omega
    · by_cases hact : a.is_active = true <;>
        simp [List.filter_cons, hs, sweepRow, hact] <;> omega

/-- C5: the sweep deletes no row (length preserved); every row is mapped
in place — flipped to inactive exactly when it was active with
`last_verified` older than the 7-day window, untouched otherwise (in
particular already-inactive rows and rows inside the window are
unchanged); and the returned count is the number of stale-and-active rows,
which equals the drop in active-row count (already-inactive rows are
excluded). -/
theorem C5_markStale (now : Int) (r : Repo) (i : Nat) (q : StoredRow)
    (hq : r.rows[i]? = some q) :
    (markInactive now r).1.rows.length = r.rows.length ∧
    ((markInactive now r).1.rows)[i]? =
      some (if isStale now q then { q with is_active := false } else q) ∧
    (markInactive now r).2 = (r.rows.filter (isStale now)).length ∧
    (markInactive now r).2 =
      (r.rows.filter (fun p => p.is_active)).length -
        ((markInactive now r).1.rows.filter (fun p => p.is_active)).length := by
  refine ⟨by simp [markInactive], ?_, rfl, ?_⟩
  · simp [markInactive, List.getElem?_map, hq, sweepRow]
  · simpa [markInactive] using sweep_transition_count now r.rows

/-- C5, witness: the sweep over the three-row demo repository, applied at
the stale active row (8 days old), which transitions. -/
theorem C5_witness :
    (markInactive demoNow demoRepo).1.rows.length = demoRepo.rows.length ∧
    ((markInactive demoNow demoRepo).1.rows)[0]? =
      some (if isStale demoNow demoRow1 then { demoRow1 with is_active := false }
            else demoRow1) ∧
    (markInactive demoNow demoRepo).2 =
      (demoRepo.rows.filter (isStale demoNow)).length ∧
    (markInactive demoNow demoRepo).2 =
      (demoRepo.rows.filter (fun p => p.is_active)).length -
        ((markInactive demoNow demoRepo).1.rows.filter (fun p => p.is_active)).length :=
  C5_markStale demoNow demoRepo 0 demoRow1 rfl

/-! ## C10 — parseJobs output fields -/

/-- C10: every raw posting `parseJobs` returns has a non-empty title,
company and url; a candidate missing any one of the three (empty title,
empty company, or a missing/empty href) is dropped; and a kept posting
whose card had no location text carries the literal `"Not specified"`. -/
theorem C10_parseJobs_fields (baseUrl : String) (cards : List Candidate) :
    (∀ j ∈ parseJobs baseUrl cards, j.title ≠ "" ∧ j.company ≠ "" ∧ j.job_url ≠ "") ∧
    (∀ c : Candidate, (c.title = "" ∨ c.company = "" ∨ c.href = none ∨ c.href = some "") →
      processCard baseUrl c = none) ∧
    (∀ c : Candidate, ∀ j : RawJob, processCard baseUrl c = some j →
      c.location = "" → j.location = "Not specified") := by
  refine ⟨?_, ?_, ?_⟩
  · intro j hj
    rcases List.mem_filterMap.mp hj with ⟨c, _, hc⟩
    simp only [processCard] at hc
    split at hc
    · rename_i h
      rcases Option.some.inj hc with rfl
      exact ⟨h.1, h.2.1, h.2.2⟩
    · exact absurd hc (by simp)
  · rintro c (h | h | h | h) <;> simp [processCard, h]
  · intro c j hc h0
    simp only [processCard] at hc
    split at hc
    · rcases Option.some.inj hc with rfl
      simp [h0]
    · exact absurd hc (by simp)

/-! ## Crawl lemmas -/

lemma countSaves_append (a b : List Event) :
    countSaves (a ++ b) = countSaves a + countSaves b := by
  simp [countSaves, List.countP_append]

/-- With a sink that never throws, `processJobs` emits one sink call per
job, in order, and counts every job. -/
lemma processJobs_ok {sink : ClassifiedJob → Except Unit Unit}
    (hs : ∀ j, sink j = Except.ok ()) (jobs : List RawJob) :
    processJobs sink jobs =
      (jobs.map (fun j => Event.saveEv (classify j)), Except.ok jobs.length) := by
  induction jobs with
  | nil => rfl
  | cons j rest ih => simp [processJobs, hs, ih]

/-- `processJobs` emits only sink events. -/
lemma processJobs_saves (sink : ClassifiedJob → Except Unit Unit) (jobs : List RawJob) :
    ∀ e ∈ (processJobs sink jobs).1, ∃ jd, e = Event.saveEv jd := by
  induction jobs with
  | nil => simp [processJobs]
  | cons j rest ih =>
    intro e he
    rcases hpr : processJobs sink rest with ⟨tr, out⟩
    cases hsj : sink (classify j) with
    | error e' =>
      simp only [processJobs, hsj] at he
      simp at he
      exact ⟨_, he⟩
    | ok u =>
      cases out with
      | ok n =>
        simp only [processJobs, hsj, hpr] at he
        rcases List.mem_cons.mp he with rfl | hin
        · exact ⟨_, rfl⟩
        · exact ih e (by rw [hpr]; exact hin)
      | error e' =>
        simp only [processJobs, hsj, hpr] at he
        rcases List.mem_cons.mp he with rfl | hin
        · exact ⟨_, rfl⟩
        · exact ih e (by rw [hpr]; exact hin)

/-- With a sink that never throws, the page loop returns `ok` and its
count equals the number of sink events it emitted. -/
lemma doPages_ok (env : String → FetchOutcome) (parse : String → List RawJob)
    (sink : ClassifiedJob → Except Unit Unit) (kw loc : String) (mp : Nat)
    (hs : ∀ j, sink j = Except.ok ()) (pages : List Nat) :
    ∃ tr n, doPages env parse sink kw loc mp pages = (tr, Except.ok n) ∧
      n = countSaves tr := by
  induction pages with
  | nil => exact ⟨[], 0, rfl, rfl⟩
  | cons p rest ih =>
    obtain ⟨tr, n, hdo, hcnt⟩ := ih
    cases he : env (buildPageUrl kw loc p) with
    | err =>
      refine ⟨[Event.fetchEv (buildPageUrl kw loc p)], 0, ?_, by simp [countSaves]⟩
      simp [doPages, he]
    | ok html =>
      refine ⟨Event.fetchEv (buildPageUrl kw loc p) ::
          ((parse html).map (fun j => Event.saveEv (classify j)) ++
            (if p < mp - 1 then [Event.sleepEv] else [])) ++ tr,
        (parse html).length + n, ?_, ?_⟩
      · simp [doPages, he, processJobs_ok hs, hdo]
      · by_cases hp : p < mp - 1 <;>
          simp [hp, countSaves, List.countP_append, List.countP_cons, List.countP_map,
            Function.comp, hcnt] <;>
          exact (List.countP_eq_length.mpr (fun a _ => rfl)).symm

/-- Every fetch event the page loop emits is for one of the visited page
indices of its (keyword, location) pair. -/
lemma doPages_fetch_mem {env : String → FetchOutcome} {parse : String → List RawJob}
    {sink : ClassifiedJob → Except Unit Unit} {kw loc : String} {mp : Nat}
    (pages : List Nat) :
    ∀ u, Event.fetchEv u ∈ (doPages env parse sink kw loc mp pages).1 →
      ∃ p ∈ pages, u = buildPageUrl kw loc p := by
  induction pages with
  | nil => intro u hu; simp [doPages] at hu
  | cons p rest ih =>
    intro u hu
    cases he : env (buildPageUrl kw loc p) with
    | err =>
      simp only [doPages, he] at hu
      simp at hu
      exact ⟨p, by simp, hu⟩
    | ok html =>
      rcases hpj : processJobs sink (parse html) with ⟨trJ, outJ⟩
      have hsaves := processJobs_saves sink (parse html)
      rw [hpj] at hsaves
      cases outJ with
      | error e =>
        simp only [doPages, he, hpj] at hu
        rcases List.mem_cons.mp hu with heq | hin
        · exact ⟨p, by simp, by injection heq⟩
        · rcases hsaves _ hin with ⟨jd, h⟩
          cases h
      | ok n =>
        rcases hdp : doPages env parse sink kw loc mp rest with ⟨trR, outR⟩
        have hmem : Event.fetchEv u ∈
            Event.fetchEv (buildPageUrl kw loc p) ::
              (trJ ++ (if p < mp - 1 then [Event.sleepEv] else [])) ++ trR := by
          cases outR <;> simpa [doPages, he, hpj, hdp] using hu
        rcases List.mem_cons.mp hmem with heq | hin
        · exact ⟨p, by simp, by injection heq⟩
        · rcases List.mem_append.mp hin with hin' | hin'
          · rcases List.mem_append.mp hin' with hj | hsl
            · rcases hsaves _ hj with ⟨jd, h⟩
              cases h
            · split at hsl <;> simp at hsl
          · have := ih u (by rw [hdp]; exact hin')
            rcases this with ⟨q, hq, hu'⟩
            exact ⟨q, by simp [hq], hu'⟩

/-- The page loop on a non-empty page list always begins by fetching the
first page. -/
lemma doPages_cons_head (env : String → FetchOutcome) (parse : String → List RawJob)
    (sink : ClassifiedJob → Except Unit Unit) (kw loc : String) (mp : Nat)
    (p : Nat) (rest : List Nat) :
    ∃ tl, (doPages env parse sink kw loc mp (p :: rest)).1 =
      Event.fetchEv (buildPageUrl kw loc p) :: tl := by
  cases he : env (buildPageUrl kw loc p) with
  | err => exact ⟨[], by simp [doPages, he]⟩
  | ok html =>
    rcases hpj : processJobs sink (parse html) with ⟨trJ, outJ⟩
    cases outJ with
    | error e => exact ⟨trJ, by simp [doPages, he, hpj]⟩
    | ok n =>
      rcases hdp : doPages env parse sink kw loc mp rest with ⟨trR, outR⟩
      cases outR with
      | ok m =>
        exact ⟨(trJ ++ (if p < mp - 1 then [Event.sleepEv] else [])) ++ trR,
          by simp [doPages, he, hpj, hdp]⟩
      | error e =>
        exact ⟨(trJ ++ (if p < mp - 1 then [Event.sleepEv] else [])) ++ trR,
          by simp [doPages, he, hpj, hdp]⟩

/-- With a sink that never throws, one pair completes with an `ok` count
equal to its sink events, and its trace ends with the between-searches
sleep. -/
lemma doPair_ok (env : String → FetchOutcome) (parse : String → List RawJob)
    (sink : ClassifiedJob → Except Unit Unit) (mp : Nat) (kw loc : String)
    (hs : ∀ j, sink j = Except.ok ()) :
    ∃ tr n, doPair env parse sink mp kw loc = (tr, Except.ok n) ∧
      n = countSaves tr ∧ tr ≠ [] ∧ tr.getLast? = some Event.sleepEv := by
  obtain ⟨tr, n, hdo, hcnt⟩ := doPages_ok env parse sink kw loc mp hs (List.range mp)
  refine ⟨tr ++ [Event.sleepEv], n, by simp [doPair, hdo], ?_, by simp, by simp⟩
  simp [countSaves_append, hcnt, countSaves]

/-- With a sink that never throws, the whole pair loop completes with an
`ok` count equal to its sink events; with at least one pair its trace ends
with a sleep. -/
lemma doPairs_ok (env : String → FetchOutcome) (parse : String → List RawJob)
    (sink : ClassifiedJob → Except Unit Unit) (mp : Nat)
    (hs : ∀ j, sink j = Except.ok ()) (prs : List (String × String)) :
    ∃ tr n, doPairs env parse sink mp prs = (tr, Except.ok n) ∧
      n = countSaves tr ∧ (prs ≠ [] → tr.getLast? = some Event.sleepEv) := by
  induction prs with
  | nil => exact ⟨[], 0, rfl, rfl, by simp⟩
  | cons pr rest ih =>
    obtain ⟨tr2, n2, hdo2, hcnt2, hlast2⟩ := ih
    obtain ⟨tr1, n1, hdo1, hcnt1, hne1, hlast1⟩ :=
      doPair_ok env parse sink mp pr.1 pr.2 hs
    refine ⟨tr1 ++ tr2, n1 + n2, ?_, ?_, ?_⟩
    · cases pr
      simp only [doPairs]
      rw [hdo1, hdo2]
    · simp [countSaves_append, hcnt1, hcnt2]
    · intro _
      cases hrest : rest with
      | nil =>
        subst hrest
        cases hdo2
        simpa using hlast1
      | cons a b =>
        have h2 := hlast2 (by simp [hrest])
        have h2ne : tr2 ≠ [] := by
          intro h
          rw [h] at h2
          simp at h2
        rw [List.getLast?_append_of_ne_nil tr1 h2ne]
        exact h2

/-! ## C3 — sink failure handling -/

/-- C3, counterexample: with a sink that throws, the exception escapes
`crawl` (the crawl aborts and never returns a count) — the per-posting
sink call inside `crawl` is not wrapped in a catch. -/
theorem C3_counterexample :
    (crawl envAllOk parseOne sinkThrow spSingle).2 = Except.error () ∧
    ∀ n : Nat, (crawl envAllOk parseOne sinkThrow spSingle).2 ≠ Except.ok n := by
  have h : (crawl envAllOk parseOne sinkThrow spSingle).2 = Except.error () := rfl
  exact ⟨h, fun n hn => by rw [h] at hn; cases hn⟩

/-- C3, amended: `crawl` itself has no per-posting catch — a sink that
throws aborts the crawl (see the counterexample). Sink failures are
tolerated only when the sink reports them by returning (as the provided
`saveJobToDatabase` sink does, catching internally): for every sink that
always returns, the crawl completes and counts exactly the postings handed
to the sink, regardless of what those sink calls reported. -/
theorem C3_sink_outcome (env : String → FetchOutcome) (parse : String → List RawJob)
    (sink : ClassifiedJob → Except Unit Unit) (sp : SearchParams)
    (hs : ∀ j, sink j = Except.ok ()) :
    (crawl env parse sink sp).2 =
      Except.ok (countSaves (crawl env parse sink sp).1) := by
  obtain ⟨tr, n, hdo, hcnt, _⟩ :=
    doPairs_ok env parse sink sp.maxPages hs (crawlPairs sp)
  simp [crawl, hdo, hcnt]

/-- C3, witness: a crawl over one keyword, one location, one page with a
sink that returns success. -/
theorem C3_witness :
    (crawl envAllOk parseOne sinkOk spSingle).2 =
      Except.ok (countSaves (crawl envAllOk parseOne sinkOk spSingle).1) :=
  C3_sink_outcome envAllOk parseOne sinkOk spSingle (fun _ => rfl)

/-! ## C9 — rate-limit sleep placement -/

/-- A pair that completes with `ok` ends its trace with the
between-searches sleep. -/
lemma doPair_ok_last_sleep {env : String → FetchOutcome} {parse : String → List RawJob}
    {sink : ClassifiedJob → Except Unit Unit} {mp : Nat} {kw loc : String}
    {tr : List Event} {n : Nat}
    (h : doPair env parse sink mp kw loc = (tr, Except.ok n)) :
    tr.getLast? = some Event.sleepEv := by
  rcases hdp : doPages env parse sink kw loc mp (List.range mp) with ⟨tr0, out0⟩
  cases out0 with
  | error e =>
    simp only [doPair, hdp] at h
    injection h with h1 h2
    cases h2
  | ok m =>
    simp only [doPair, hdp] at h
    injection h with h1 h2
    subst h1
    simp

/-- A pair loop that completes with `ok` on at least one pair ends its
trace with a sleep. -/
lemma doPairs_ok_last_sleep {env : String → FetchOutcome} {parse : String → List RawJob}
    {sink : ClassifiedJob → Except Unit Unit} {mp : Nat} :
    ∀ prs tr n, prs ≠ [] → doPairs env parse sink mp prs = (tr, Except.ok n) →
      tr.getLast? = some Event.sleepEv := by
  intro prs
  induction prs with
  | nil => intro tr n h; exact absurd rfl h
  | cons pr rest ih =>
    intro tr n _ hdo
    rcases pr with ⟨kw, loc⟩
    rcases hp1 : doPair env parse sink mp kw loc with ⟨tr1, out1⟩
    cases out1 with
    | error e =>
      simp only [doPairs, hp1] at hdo
      injection hdo with h1 h2
      cases h2
    | ok n1 =>
      rcases hp2 : doPairs env parse sink mp rest with ⟨tr2, out2⟩
      cases out2 with
      | error e =>
        simp only [doPairs, hp1, hp2] at hdo
        injection hdo with h1 h2
        cases h2
      | ok n2 =>
        simp only [doPairs, hp1, hp2] at hdo
        injection hdo with h1 h2
        subst h1
        cases hr : rest with
        | nil =>
          subst hr
          have htr2 : tr2 = [] := by
            simp only [doPairs] at hp2
            injection hp2 with a b
            exact a.symm
          subst htr2
          simpa using doPair_ok_last_sleep hp1
        | cons a b =>
          have h2l := ih tr2 n2 (by simp [hr]) hp2
          have h2ne : tr2 ≠ [] := by
            intro hh
            rw [hh] at h2l
            simp at h2l
          rw [List.getLast?_append_of_ne_nil tr1 h2ne]
          exact h2l

/-- A value `getLast?` yields is a member of the list. -/
lemma getLast?_mem_self {α : Type} {l : List α} {x : α}
    (h : l.getLast? = some x) : x ∈ l := by
  obtain ⟨hne, hx⟩ := List.mem_getLast?_eq_getLast (Option.mem_def.mpr h)
  rw [hx]
  exact List.getLast_mem hne

/-- The trace of the page loop never ends with a sleep, provided the last
visited page index is at least `maxPages - 1` (as it is for the actual
call over pages `0 .. maxPages-1`): the inter-page sleep runs only when
more pages remain for the pair. -/
lemma doPages_last_not_sleep {env : String → FetchOutcome} {parse : String → List RawJob}
    {sink : ClassifiedJob → Except Unit Unit} {kw loc : String} {mp : Nat} :
    ∀ pages, (∀ q, pages.getLast? = some q → mp - 1 ≤ q) →
      (doPages env parse sink kw loc mp pages).1.getLast? ≠ some Event.sleepEv := by
  intro pages
  induction pages with
  | nil => intro _ h; simp [doPages] at h
  | cons p rest ih =>
    intro hq h
    cases he : env (buildPageUrl kw loc p) with
    | err =>
      simp only [doPages, he] at h
      simp at h
    | ok html =>
      rcases hpj : processJobs sink (parse html) with ⟨trJ, outJ⟩
      have hsaves := processJobs_saves sink (parse html)
      rw [hpj] at hsaves
      cases outJ with
      | error e =>
        simp only [doPages, he, hpj] at h
        have hmem : Event.sleepEv ∈ Event.fetchEv (buildPageUrl kw loc p) :: trJ :=
          getLast?_mem_self h
        rcases List.mem_cons.mp hmem with heq | hin
        · cases heq
        · rcases hsaves _ hin with ⟨jd, hjd⟩
          cases hjd
      | ok n =>
        cases hr : rest with
        | nil =>
          subst hr
          have hple : mp - 1 ≤ p := hq p (by simp)
          have hnp : ¬ p < mp - 1 := by omega
          simp only [doPages, he, hpj, hnp, if_false] at h
          have hmem := getLast?_mem_self h
          have hinJ : Event.sleepEv ∈ trJ := by simpa using hmem
          rcases hsaves _ hinJ with ⟨jd, hjd⟩
          cases hjd
        | cons a b =>
          have hq' : ∀ q, rest.getLast? = some q → mp - 1 ≤ q := by
            intro q hq2
            apply hq
            rw [hr]
            rw [hr] at hq2
            rw [List.getLast?_cons_cons]
            exact hq2
          rcases hdp : doPages env parse sink kw loc mp rest with ⟨trR, outR⟩
          have hh : trR.getLast? ≠ some Event.sleepEv := by
            have := ih hq'
            rw [hdp] at this
            exact this
          obtain ⟨tl, htl⟩ := doPages_cons_head env parse sink kw loc mp a b
          have htrR : trR = Event.fetchEv (buildPageUrl kw loc a) :: tl := by
            rw [hr] at hdp
            rw [hdp] at htl
            exact htl
          have htrRne : trR ≠ [] := by simp [htrR]
          have hlast : (doPages env parse sink kw loc mp (p :: rest)).1.getLast? =
              trR.getLast? := by
            cases outR with
            | ok m =>
              simp only [doPages, he, hpj, hdp]
              rw [List.getLast?_append_of_ne_nil _ htrRne]
            | error e =>
              simp only [doPages, he, hpj, hdp]
              rw [List.getLast?_append_of_ne_nil _ htrRne]
          rw [hlast] at h
          exact hh h

/-- The last page index the loop visits is `maxPages - 1`. -/
lemma range_getLast?_le {mp q : Nat} (h : (List.range mp).getLast? = some q) :
    mp - 1 ≤ q := by
  cases mp with
  | zero => simp at h
  | succ m =>
    rw [List.range_succ, List.getLast?_concat] at h
    injection h with h
    omega

/-- C9, counterexample: the between-searches sleep of line 196 runs even
after the last (keyword, location) pair, so a delay does follow the final
request of the crawl — the final action of this one-pair, one-page crawl
is a sleep. -/
theorem C9_counterexample :
    (crawl envAllOk parseNone sinkOk spSingle).1 =
      [Event.fetchEv (buildPageUrl "java" "Remote" 0), Event.sleepEv] ∧
    (crawl envAllOk parseNone sinkOk spSingle).1.getLast? = some Event.sleepEv := by
  exact ⟨by decide, by decide⟩

/-- C9, amended: the inter-page delay is slept only when more pages remain
for the current pair (a pair trace never ends with a sleep), and the
same delay is slept after every pair including the final one — so whenever
a crawl with at least one (keyword, location) pair completes normally, its
action sequence ends with a sleep. -/
theorem C9_final_sleep (env : String → FetchOutcome) (parse : String → List RawJob)
    (sink : ClassifiedJob → Except Unit Unit) (sp : SearchParams) (n : Nat)
    (hne : crawlPairs sp ≠ [])
    (hok : (crawl env parse sink sp).2 = Except.ok n) :
    (crawl env parse sink sp).1.getLast? = some Event.sleepEv ∧
    ∀ kw loc, (doPages env parse sink kw loc sp.maxPages
      (List.range sp.maxPages)).1.getLast? ≠ some Event.sleepEv := by
  constructor
  · rcases hc : doPairs env parse sink sp.maxPages (crawlPairs sp) with ⟨tr, out⟩
    have hc' : crawl env parse sink sp = (tr, out) := hc
    rw [hc'] at hok ⊢
    have hout : out = Except.ok n := hok
    subst hout
    exact doPairs_ok_last_sleep (crawlPairs sp) tr n hne hc
  · intro kw loc
    exact doPages_last_not_sleep (List.range sp.maxPages)
      (fun q hq => range_getLast?_le hq)

/-- C9, witness: the amended theorem applied to the one-pair, one-page
crawl. -/
theorem C9_witness :
    (crawl envAllOk parseNone sinkOk spSingle).1.getLast? = some Event.sleepEv ∧
    ∀ kw loc, (doPages envAllOk parseNone sinkOk kw loc spSingle.maxPages
      (List.range spSingle.maxPages)).1.getLast? ≠ some Event.sleepEv :=
  C9_final_sleep envAllOk parseNone sinkOk spSingle 0 (by decide) rfl

/-! ## C6 — fetch-failure isolation at pair granularity -/

/-- Every fetch event one pair emits is for one of that pair's own page
indices. -/
lemma doPair_fetch_mem (env : String → FetchOutcome) (parse : String → List RawJob)
    (sink : ClassifiedJob → Except Unit Unit) (mp : Nat) (kw loc : String) :
    ∀ u, Event.fetchEv u ∈ (doPair env parse sink mp kw loc).1 →
      ∃ p ∈ List.range mp, u = buildPageUrl kw loc p := by
  intro u hu
  rcases hdp : doPages env parse sink kw loc mp (List.range mp) with ⟨tr0, out0⟩
  have hsub : Event.fetchEv u ∈ tr0 := by
    cases out0 with
    | error e => simpa [doPair, hdp] using hu
    | ok n =>
      simp only [doPair, hdp] at hu
      rcases List.mem_append.mp hu with h | h
      · exact h
      · simp at h
  exact doPages_fetch_mem (List.range mp) u (by rw [hdp]; exact hsub)

/-- C6: with the fetch for page index 1 of pair ("x","y") failing (page 2
of the 3-page pagination) and page index 0 succeeding, a crawl over the
pairs ("x","y") then ("z","y") still delivers every posting of page 1 of
("x","y") to the sink, still counts them in the returned total, never
fetches page index 2 of ("x","y"), and proceeds to fetch the next pair
("z","y"). (Sink never throws, as the provided sink in `src/index.js`
never does.) -/
theorem C6_pair_failure_isolation (env : String → FetchOutcome)
    (parse : String → List RawJob) (sink : ClassifiedJob → Except Unit Unit)
    (html0 : String)
    (h0 : env (buildPageUrl "x" "y" 0) = FetchOutcome.ok html0)
    (h1 : env (buildPageUrl "x" "y" 1) = FetchOutcome.err)
    (hs : ∀ j, sink j = Except.ok ()) :
    (∀ j ∈ parse html0, Event.saveEv (classify j) ∈ (crawl env parse sink spXZ).1) ∧
    (∃ n, (crawl env parse sink spXZ).2 = Except.ok n ∧ (parse html0).length ≤ n) ∧
    Event.fetchEv (buildPageUrl "x" "y" 2) ∉ (crawl env parse sink spXZ).1 ∧
    Event.fetchEv (buildPageUrl "z" "y" 0) ∈ (crawl env parse sink spXZ).1 := by
  have hrange : List.range 3 = [0, 1, 2] := rfl
  have hd12 : doPages env parse sink "x" "y" 3 [1, 2] =
      ([Event.fetchEv (buildPageUrl "x" "y" 1)], Except.ok 0) := by
    simp [doPages, h1]
  have hd012 : doPages env parse sink "x" "y" 3 [0, 1, 2] =
      (Event.fetchEv (buildPageUrl "x" "y" 0) ::
        ((parse html0).map (fun j => Event.saveEv (classify j)) ++ [Event.sleepEv]) ++
        [Event.fetchEv (buildPageUrl "x" "y" 1)],
       Except.ok ((parse html0).length + 0)) := by
    simp [doPages, h0, h1, processJobs_ok hs, hd12]
  have hpairA : doPair env parse sink 3 "x" "y" =
      (Event.fetchEv (buildPageUrl "x" "y" 0) ::
        ((parse html0).map (fun j => Event.saveEv (classify j)) ++ [Event.sleepEv]) ++
        [Event.fetchEv (buildPageUrl "x" "y" 1)] ++ [Event.sleepEv],
       Except.ok ((parse html0).length + 0)) := by
    simp only [doPair, hrange, hd012]
  obtain ⟨trB, nB, hB, hcntB, hBne, hBlast⟩ :=
    doPair_ok env parse sink 3 "z" "y" hs
  have hcrawl : crawl env parse sink spXZ =
      ((Event.fetchEv (buildPageUrl "x" "y" 0) ::
        ((parse html0).map (fun j => Event.saveEv (classify j)) ++ [Event.sleepEv]) ++
        [Event.fetchEv (buildPageUrl "x" "y" 1)] ++ [Event.sleepEv]) ++ trB,
       Except.ok ((parse html0).length + nB)) := by
    have hcp : crawlPairs spXZ = [("x", "y"), ("z", "y")] := rfl
    simp only [crawl, hcp, spXZ, doPairs, hpairA, hB, List.append_nil, Nat.add_zero]
  refine ⟨?_, ?_, ?_, ?_⟩
  · intro j hj
    rw [hcrawl]
    apply List.mem_append_left
    apply List.mem_append_left
    apply List.mem_append_left
    apply List.mem_cons_of_mem
    exact List.mem_append_left _ (List.mem_map_of_mem _ hj)
  · refine ⟨(parse html0).length + nB, ?_, by omega⟩
    rw [hcrawl]
  · intro hmem
    rw [hcrawl] at hmem
    have e20 : buildPageUrl "x" "y" 2 ≠ buildPageUrl "x" "y" 0 := by decide
    have e21 : buildPageUrl "x" "y" 2 ≠ buildPageUrl "x" "y" 1 := by decide
    rcases List.mem_append.mp hmem with hA | hB'
    · rcases List.mem_append.mp hA with hA' | hA''
      · rcases List.mem_append.mp hA' with hA0 | hA1
        · rcases List.mem_cons.mp hA0 with heq | hin
          · exact e20 (by injection heq)
          · rcases List.mem_append.mp hin with hsv | hsl
            · rcases List.mem_map.mp hsv with ⟨j, _, hj⟩
              cases hj
            · simp at hsl
        · simp at hA1
          exact e21 hA1
      · simp at hA''
    · have := doPair_fetch_mem env parse sink 3 "z" "y"
        (buildPageUrl "x" "y" 2) (by rw [hB]; exact hB')
      rcases this with ⟨p, hp, hup⟩
      rw [hrange] at hp
      simp only [List.mem_cons, List.not_mem_nil, or_false] at hp
      rcases hp with rfl | rfl | rfl
      · exact absurd hup (by decide)
      · exact absurd hup (by decide)
      · exact absurd hup (by decide)
  · rw [hcrawl]
    apply List.mem_append_right
    rcases hdpz : doPages env parse sink "z" "y" 3 (List.range 3) with ⟨trZ, outZ⟩
    have htrB : trB = trZ ++ [Event.sleepEv] := by
      cases outZ with
      | error e =>
        simp only [doPair, hdpz] at hB
        injection hB with hB1 hB2
        cases hB2
      | ok m =>
        simp only [doPair, hdpz] at hB
        injection hB with hB1 hB2
        exact hB1.symm
    obtain ⟨tl, htl⟩ := doPages_cons_head env parse sink "z" "y" 3 0 [1, 2]
    rw [hrange] at hdpz
    rw [hdpz] at htl
    have htrZ : trZ = Event.fetchEv (buildPageUrl "z" "y" 0) :: tl := htl
    rw [htrB, htrZ]
    simp

/-- C6, witness: the isolation theorem applied to a concrete environment
that fails exactly on page index 1 of pair ("x","y"). -/
theorem C6_witness :
    Event.fetchEv (buildPageUrl "z" "y" 0) ∈
      (crawl envFailXY1 parseOne sinkOk spXZ).1 :=
  (C6_pair_failure_isolation envFailXY1 parseOne sinkOk "page"
    (by decide) (by decide) (fun _ => rfl)).2.2.2

/-! ## C8 — URL normalization -/

lemma takeWhile_append_all {α : Type} {p : α → Bool} {xs ys : List α}
    (hx : ∀ x ∈ xs, p x = true) :
    (xs ++ ys).takeWhile p = xs ++ ys.takeWhile p := by
  induction xs with
  | nil => simp
  | cons a t ih =>
    have ha := hx a (by simp)
    simp [List.takeWhile_cons, ha, ih (fun x hxt => hx x (by simp [hxt]))]

lemma dropWhile_append_all {α : Type} {p : α → Bool} {xs ys : List α}
    (hx : ∀ x ∈ xs, p x = true) :
    (xs ++ ys).dropWhile p = ys.dropWhile p := by
  induction xs with
  | nil => simp
  | cons a t ih =>
    have ha := hx a (by simp)
    simp [List.dropWhile_cons, ha, ih (fun x hxt => hx x (by simp [hxt]))]

lemma map_id_of_forall {α : Type} {f : α → α} {l : List α}
    (h : ∀ x ∈ l, f x = x) : l.map f = l := by
  induction l with
  | nil => rfl
  | cons a t ih => simp [h a (by simp), ih (fun x hx => h x (by simp [hx]))]

/-- Lowercase host characters are untouched by `Char.toLower`. -/
lemma toLower_eq_self_of_goodHost {c : Char} (h : goodHostChar c = true) :
    Char.toLower c = c := by
  have hn : ¬ (c.toNat ≥ 65 ∧ c.toNat ≤ 90) := by
    simp only [goodHostChar, Bool.or_eq_true, Bool.and_eq_true, decide_eq_true_eq,
      beq_iff_eq] at h
    omega
  simp [Char.toLower, hn]

/-- Host characters are not host terminators. -/
lemma goodHost_not_hostEnd {c : Char} (h : goodHostChar c = true) :
    (!isHostEnd c) = true := by
  have hne : isHostEnd c = false := by
    by_contra hc
    rw [Bool.not_eq_false] at hc
    have hcc : c = '/' ∨ c = '?' ∨ c = '#' := by
      simpa [isHostEnd, or_assoc] using hc
    rcases hcc with rfl | rfl | rfl <;> exact absurd h (by decide)
  simp [hne]

/-- C8: resolving a site-root-relative href of the form
`path ++ "?" ++ query` (lowercase host, slash-leading path free of `?`
and `#`) against the origin `https://host` yields `https://host/path`:
the relative link is made absolute and every query parameter is
stripped, keeping only scheme, host and path. -/
theorem C8_url_normalization (host path query : String)
    (hh : host.toList ≠ [])
    (hhc : host.toList.all goodHostChar = true)
    (hp : path.toList.head? = some '/')
    (hpc : path.toList.all (fun c => !isPathEnd c) = true) :
    normalizeJobUrl ("https://" ++ host) (path ++ "?" ++ query) =
      "https://" ++ host ++ path := by
  obtain ⟨tl, hpath_eq⟩ : ∃ tl, path.toList = '/' :: tl := by
    cases hpt : path.toList with
    | nil => rw [hpt] at hp; cases hp
    | cons c tl =>
      rw [hpt] at hp
      simp at hp
      exact ⟨tl, by rw [hp]⟩
  have hhostall : ∀ x ∈ host.toList, goodHostChar x = true :=
    List.all_eq_true.mp hhc
  have hpathall : ∀ x ∈ path.toList, (!isPathEnd x) = true :=
    List.all_eq_true.mp hpc
  have hq_data : (path ++ "?" ++ query).toList = path.toList ++ ('?' :: query.toList) := by
    show (path ++ "?" ++ query).data = path.data ++ ('?' :: query.data)
    simp [String.data_append]
  have hhead : (path ++ "?" ++ query).toList.head? = some '/' := by
    rw [hq_data, hpath_eq]
    simp
  have hcs : (("https://" ++ host) ++ (path ++ "?" ++ query)).toList =
      'h' :: 't' :: 't' :: 'p' :: 's' :: ':' :: '/' :: '/' ::
        (host.toList ++ (path.toList ++ '?' :: query.toList)) := by
    show (("https://" ++ host) ++ (path ++ "?" ++ query)).data = _
    simp [String.data_append]
  have htw : ∀ r : List Char,
      List.takeWhile isSchemeChar
        ('h' :: 't' :: 't' :: 'p' :: 's' :: ':' :: r) = ['h', 't', 't', 'p', 's'] := by
    intro r
    simp [List.takeWhile_cons, (by decide : isSchemeChar 'h' = true),
      (by decide : isSchemeChar 't' = true), (by decide : isSchemeChar 'p' = true),
      (by decide : isSchemeChar 's' = true), (by decide : isSchemeChar ':' = false)]
  have hdw : ∀ r : List Char,
      List.dropWhile isSchemeChar
        ('h' :: 't' :: 't' :: 'p' :: 's' :: ':' :: r) = ':' :: r := by
    intro r
    simp [List.dropWhile_cons, (by decide : isSchemeChar 'h' = true),
      (by decide : isSchemeChar 't' = true), (by decide : isSchemeChar 'p' = true),
      (by decide : isSchemeChar 's' = true), (by decide : isSchemeChar ':' = false)]
  have hhost_tw : List.takeWhile (fun c => !isHostEnd c)
      (host.toList ++ (path.toList ++ '?' :: query.toList)) = host.toList := by
    rw [takeWhile_append_all (fun x hx => goodHost_not_hostEnd (hhostall x hx))]
    rw [hpath_eq]
    simp [List.takeWhile_cons, (by decide : isHostEnd '/' = true)]
  have hhost_dw : List.dropWhile (fun c => !isHostEnd c)
      (host.toList ++ (path.toList ++ '?' :: query.toList)) =
      path.toList ++ '?' :: query.toList := by
    rw [dropWhile_append_all (fun x hx => goodHost_not_hostEnd (hhostall x hx))]
    rw [hpath_eq]
    simp [List.dropWhile_cons, (by decide : isHostEnd '/' = true)]
  have hpath_tw : List.takeWhile (fun c => !isPathEnd c)
      (path.toList ++ '?' :: query.toList) = path.toList := by
    rw [takeWhile_append_all hpathall]
    simp [List.takeWhile_cons, (by decide : isPathEnd '?' = true)]
  have hhostne : host.toList.isEmpty = false := by
    cases hht : host.toList with
    | nil => exact absurd hht hh
    | cons a t => rfl
  have hpathne : path.toList.isEmpty = false := by
    rw [hpath_eq]; rfl
  have hmap_host : List.map Char.toLower host.data = host.data :=
    map_id_of_forall (fun x hx => toLower_eq_self_of_goodHost (hhostall x hx))
  have hparse : parseURL (("https://" ++ host) ++ (path ++ "?" ++ query)) =
      some { scheme := "https", host := host, pathname := path } := by
    simp only [parseURL, hcs, htw, hdw]
    simp only [List.head?_cons, Option.some.injEq,
      (by decide : ('h'.isAlpha) = true), Bool.not_true, Bool.false_eq_true,
      if_false, hhost_tw, hhost_dw, hpath_tw, hhostne, hpathne]
    simp [hmap_host, hpathne]
  simp only [normalizeJobUrl]
  rw [if_pos hhead, hparse]
  show ("https" ++ "://" ++ host) ++ path = "https://" ++ host ++ path
  apply String.ext
  simp [String.data_append]

/-- C8, witness: the example of the spec — the relative href
`/jobs/view?id=1&jk=abc123&tk=xyz` against origin `https://example.com`
normalizes to `https://example.com/jobs/view`. -/
theorem C8_witness :
    normalizeJobUrl ("https://" ++ "example.com")
      ("/jobs/view" ++ "?" ++ "id=1&jk=abc123&tk=xyz") =
      "https://" ++ "example.com" ++ "/jobs/view" :=
  C8_url_normalization "example.com" "/jobs/view" "id=1&jk=abc123&tk=xyz"
    (by decide) (by decide) (by decide) (by decide)

end JobScraper
